import Mathlib

/-!
Shallow embedding of the repository's two scripts:

* `E-Library Book Management/E-Library book management .py` — a catalog of
  books kept in a singly linked list sorted by title (case-insensitively),
  with borrow / return / undo / search operations.  The linked list is
  embedded as a `List Book`; the undo stack's node references are embedded
  as positions into that list (the list structure is otherwise unchanged by
  borrow / return / undo, so a position identifies the referenced node).

* `Virtual Train Route Planner/Virtual train route Planner.py` — linear and
  circular doubly linked routes of stations plus a traversal cursor.  The
  value-level operations (ETA, circular find/remove) are embedded over
  `List Station` with the cursor as an index; the pointer-level operations
  of the linear route (`append`, `insert_after`, `remove`, the two
  iterators) are embedded over an arena of nodes addressed by index, with
  `prev` / `next` as optional indices, mirroring the Python object graph.

Python strings are sequences of Unicode code points; they are embedded as
`String` values compared through their code-point list `String.data`.
`str.lower()` is embedded as mapping `Char.toLower` over the code points,
and the `<` / `>` comparisons of the source as code-point-lexicographic
comparison `lexLt`.
-/

/-- Embedding of Python `s.lower()` applied to a string that is then
compared code point by code point: the list of lowered code points. -/
def lowerKey (s : String) : List Char := s.data.map Char.toLower

/-- Code-point-lexicographic strict comparison, the embedding of Python's
`<` on strings (a proper prefix is smaller; otherwise the first differing
code point decides). -/
def lexLt : List Char → List Char → Bool
  | [], [] => false
  | [], _ :: _ => true
  | _ :: _, [] => false
  | a :: as, b :: bs => if a < b then true else if b < a then false else lexLt as bs

/-- Embedding of Python's `in` on strings restricted to prefix position:
`isPrefixList p s` is true when `p` is an initial segment of `s`. -/
def isPrefixList : List Char → List Char → Bool
  | [], _ => true
  | _ :: _, [] => false
  | a :: as, b :: bs => a == b && isPrefixList as bs

/-- Embedding of Python's substring test `p in s` on code-point lists:
`p` occurs contiguously somewhere in `s`. -/
def isSubstring (pat : List Char) : List Char → Bool
  | [] => pat.isEmpty
  | c :: rest => isPrefixList pat (c :: rest) || isSubstring pat rest

/-- A book node of the e-library's singly linked list (`BookNode` in the
source): title, author, and the availability flag (default `true`). -/
structure Book where
  title : String
  author : String
  available : Bool
deriving DecidableEq

/-- The e-library state (`ELibrary` in the source): the linked list of
books (head first) and the undo stack.  A stack entry `(action, i)` embeds
the source's `(action, node)` pair: the node reference is the position `i`
of the referenced book in the list; the most recent entry is at the head. -/
structure ELibrary where
  books : List Book
  undoStack : List (String × Nat)
deriving DecidableEq

/-- The scan loop of `add_book`: walk past the nodes whose (lowered) title
is strictly smaller than the new title and insert the new node right
before the first remaining node (or at the end).  This embeds the source's
`while current.next and current.next.title.lower() < title.lower()`. -/
def insertScan (nb : Book) : List Book → List Book
  | [] => [nb]
  | c :: rest =>
    if lexLt (lowerKey c.title) (lowerKey nb.title) then c :: insertScan nb rest
    else nb :: c :: rest

/-- `ELibrary.add_book` on the book list: a new always-available node is
inserted at the front when the list is empty or the head's lowered title is
strictly greater than the new lowered title; otherwise the head is kept and
the scan loop inserts into the tail. -/
def addBook (books : List Book) (t a : String) : List Book :=
  match books with
  | [] => [⟨t, a, true⟩]
  | b :: rest =>
    if lexLt (lowerKey t) (lowerKey b.title) then ⟨t, a, true⟩ :: b :: rest
    else b :: insertScan ⟨t, a, true⟩ rest

/-- The forward scan shared by `borrow_book` and `return_book`: position of
the first node whose lowered title equals the lowered argument. -/
def findBook : List Book → String → Option Nat
  | [], _ => none
  | b :: rest, t =>
    if lowerKey b.title = lowerKey t then some 0
    else (findBook rest t).map (· + 1)

/-- The three reportable outcomes of `borrow_book` / `return_book`: the
action happened, the book was already in the requested state, or no node's
title matched. -/
inductive LibMsg where
  | ok
  | already
  | notFound
deriving DecidableEq

/-- `ELibrary.borrow_book`: on the first case-insensitive title match, if
the node is available, clear its flag and push `("borrow", node)` onto the
undo stack; if it is not available report "already borrowed"; with no match
report "not found". -/
def ELibrary.borrowBook (lib : ELibrary) (t : String) : ELibrary × LibMsg :=
  match findBook lib.books t with
  | none => (lib, .notFound)
  | some i =>
    match lib.books[i]? with
    | none => (lib, .notFound)
    | some b =>
      if b.available then
        (⟨lib.books.set i { b with available := false },
          ("borrow", i) :: lib.undoStack⟩, .ok)
      else (lib, .already)

/-- `ELibrary.return_book`: symmetric to borrowing — on the first match, if
the node is unavailable, set its flag and push `("return", node)`. -/
def ELibrary.returnBook (lib : ELibrary) (t : String) : ELibrary × LibMsg :=
  match findBook lib.books t with
  | none => (lib, .notFound)
  | some i =>
    match lib.books[i]? with
    | none => (lib, .notFound)
    | some b =>
      if b.available then (lib, .already)
      else
        (⟨lib.books.set i { b with available := true },
          ("return", i) :: lib.undoStack⟩, .ok)

/-- `ELibrary.undo`: with an empty stack report failure (`false`) and leave
the state untouched; otherwise pop the most recent `(action, node)` pair
and flip the referenced node's availability back (set it for a popped
"borrow", clear it for a popped "return"). -/
def ELibrary.undo (lib : ELibrary) : ELibrary × Bool :=
  match lib.undoStack with
  | [] => (lib, false)
  | (act, i) :: rest =>
    match lib.books[i]? with
    | none => (⟨lib.books, rest⟩, true)
    | some b =>
      if act = "borrow" then
        (⟨lib.books.set i { b with available := true }, rest⟩, true)
      else if act = "return" then
        (⟨lib.books.set i { b with available := false }, rest⟩, true)
      else (⟨lib.books, rest⟩, true)

/-- `ELibrary.search`: the ordered sublist of nodes whose lowered title or
lowered author contains the lowered keyword as a substring; the source
reports "no matching books found" exactly when this list is empty. -/
def searchBooks (books : List Book) (kw : String) : List Book :=
  books.filter fun b =>
    isSubstring (lowerKey kw) (lowerKey b.title) ||
      isSubstring (lowerKey kw) (lowerKey b.author)

/-- The catalog invariant: consecutive (in fact all) pairs of the list are
in weakly ascending order of lowered title. -/
def CatalogSorted (l : List Book) : Prop :=
  List.Sorted (fun x y : Book => lexLt (lowerKey y.title) (lowerKey x.title) = false) l

/-- The catalog obtained by running a sequence of `add_book` calls on a
fresh library. -/
def buildCatalog (ops : List (String × String)) : List Book :=
  ops.foldl (fun bs p => addBook bs p.1 p.2) []

/-- A station of the route planner (`Station` in the source): its name and
the travel time to its immediate successor in traversal order (the data
model declares it a non-negative integer). -/
structure Station where
  name : String
  minutesToNext : Nat
deriving DecidableEq

/-- The body of `TrainCursor.eta_to` specialised to a linear route, acting
on the suffix of stations from the cursor's node onward: return `0` when
the current node already matches the target (case-insensitively); when the
current node has no successor the end was reached and the target is
unreachable (`none`); otherwise add the current node's travel time to the
time computed from the successor. -/
def etaScan : List Station → String → Option Nat
  | [], _ => none
  | s :: rest, t =>
    if lowerKey s.name = lowerKey t then some 0
    else
      match rest with
      | [] => none
      | _ :: _ => (etaScan rest t).map (s.minutesToNext + ·)

/-- `TrainCursor.eta_to` over a linear route embedded as the station list
`l` with the cursor at position `p` (dropping past the end leaves no
current node, for which the source returns `None`). -/
def etaLinear (l : List Station) (p : Nat) (t : String) : Option Nat :=
  etaScan (l.drop p) t

/-- A circular route (`CircularRoute` in the source): the stations listed
from the designated head in successor order, plus the explicitly tracked
element count `_size`. -/
structure CircRoute where
  stations : List Station
  csize : Nat
deriving DecidableEq

/-- `CircularRoute.size`. -/
def CircRoute.size (r : CircRoute) : Nat := r.csize

/-- The bounded scan of `CircularRoute.find`: check `fuel` consecutive
nodes of the cycle starting at position `k` (successor = next index modulo
the list length) and return the position of the first case-insensitive
name match. -/
def findCyc (l : List Station) (t : String) : Nat → Nat → Option Nat
  | 0, _ => none
  | fuel + 1, k =>
    match l[k % l.length]? with
    | none => none
    | some s =>
      if lowerKey s.name = lowerKey t then some (k % l.length)
      else findCyc l t fuel (k + 1)

/-- `CircularRoute.find`: `None` on an empty route, otherwise a scan of
exactly `_size` nodes starting at the head. -/
def CircRoute.find (r : CircRoute) (t : String) : Option Nat :=
  match r.stations with
  | [] => none
  | _ :: _ => findCyc r.stations t r.csize 0

/-- `CircularRoute.remove` with the node handle given as its position from
the head: an empty route is left alone; removing the sole remaining
element (`_size == 1` and the node is the head) clears the head reference
and resets the count; otherwise the node is unlinked (removing the head
designates its successor as the new head, which is exactly dropping
position `i` from the head-first listing) and the count decremented. -/
def CircRoute.remove (r : CircRoute) (i : Nat) : CircRoute :=
  match r.stations with
  | [] => r
  | _ :: _ =>
    if r.csize = 1 ∧ i = 0 then ⟨[], 0⟩
    else ⟨r.stations.eraseIdx i, r.csize - 1⟩

/-- The body of `TrainCursor.eta_to` specialised to a circular route:
check the node at cyclic position `k`; on a match return `0`, otherwise
add its travel time to the time from its successor, giving up (`none`)
once `fuel` checks are spent.  The source checks `size + 1` nodes (the
loop exits only when `visited > limit` with `limit = size`). -/
def etaCyc (l : List Station) (t : String) : Nat → Nat → Option Nat
  | 0, _ => none
  | fuel + 1, k =>
    match l[k % l.length]? with
    | none => none
    | some s =>
      if lowerKey s.name = lowerKey t then some 0
      else (etaCyc l t fuel (k + 1)).map (s.minutesToNext + ·)

/-- `TrainCursor.eta_to` over a circular route with the cursor at position
`p` from the head: `None` with no current node, otherwise the capped cyclic
scan over `_size + 1` nodes starting at the cursor. -/
def CircRoute.etaTo (r : CircRoute) (p : Nat) (t : String) : Option Nat :=
  match r.stations with
  | [] => none
  | _ :: _ => etaCyc r.stations t (r.csize + 1) p

/-- A node of the doubly linked linear route (`Node` in the source): the
payload station and the `prev` / `next` references, embedded as optional
indices into the node arena. -/
structure DNode where
  station : Station
  prev : Option Nat
  next : Option Nat
deriving DecidableEq

/-- The linear route (`DoublyLinkedRoute` in the source): the arena of all
nodes ever allocated (a node handle is its arena index; a fresh node is
allocated at the end) together with the `head` and `tail` references. -/
structure DLRoute where
  nodes : List DNode
  head : Option Nat
  tail : Option Nat
deriving DecidableEq

/-- A freshly constructed, empty linear route. -/
def emptyDLRoute : DLRoute := ⟨[], none, none⟩

/-- Update the node stored at arena index `i` in place. -/
def modifyAt (l : List DNode) (i : Nat) (f : DNode → DNode) : List DNode :=
  match l, i with
  | [], _ => []
  | x :: xs, 0 => f x :: xs
  | x :: xs, n + 1 => x :: modifyAt xs n f

/-- Read the node at arena index `i` (a dummy node for an out-of-range
index; the operations below are only applied to indices of live nodes). -/
def nodeAt (l : List DNode) (i : Nat) : DNode :=
  (l[i]?).getD ⟨⟨"", 0⟩, none, none⟩

/-- `DoublyLinkedRoute.append`: allocate a node; if the route has no tail
it becomes both head and tail; otherwise it is linked after the current
tail (`node.prev = tail`, `tail.next = node`) and becomes the new tail.
Returns the updated route and the handle of the new node. -/
def DLRoute.append (r : DLRoute) (st : Station) : DLRoute × Nat :=
  let idx := r.nodes.length
  match r.tail with
  | none => (⟨r.nodes ++ [⟨st, none, none⟩], some idx, some idx⟩, idx)
  | some t =>
    (⟨modifyAt (r.nodes ++ [⟨st, some t, none⟩]) t (fun d => { d with next := some idx }),
      r.head, some idx⟩, idx)

/-- `DoublyLinkedRoute.insert_after`: allocate a node between `anchor` and
its successor, relinking both sides; when the anchor was the tail the new
node becomes the tail. -/
def DLRoute.insertAfter (r : DLRoute) (anchor : Nat) (st : Station) : DLRoute × Nat :=
  let idx := r.nodes.length
  let nxt := (nodeAt r.nodes anchor).next
  let ns := modifyAt (r.nodes ++ [⟨st, some anchor, nxt⟩]) anchor
    (fun d => { d with next := some idx })
  match nxt with
  | some n => (⟨modifyAt ns n (fun d => { d with prev := some idx }), r.head, r.tail⟩, idx)
  | none => (⟨ns, r.head, some idx⟩, idx)

/-- `DoublyLinkedRoute.remove`: unlink the node at handle `i` — its
predecessor's `next` (or the head reference, when removing the head) is
redirected to its successor, its successor's `prev` (or the tail
reference, when removing the tail) to its predecessor — and clear the
removed node's own references. -/
def DLRoute.removeNode (r : DLRoute) (i : Nat) : DLRoute :=
  let nd := nodeAt r.nodes i
  let ns1 := match nd.prev with
    | some p => modifyAt r.nodes p (fun d => { d with next := nd.next })
    | none => r.nodes
  let head1 := match nd.prev with
    | some _ => r.head
    | none => nd.next
  let ns2 := match nd.next with
    | some q => modifyAt ns1 q (fun d => { d with prev := nd.prev })
    | none => ns1
  let tail1 := match nd.next with
    | some _ => r.tail
    | none => nd.prev
  ⟨modifyAt ns2 i (fun d => { d with prev := none, next := none }), head1, tail1⟩

/-- Follow `next` references from `start`, collecting the stations passed;
the fuel bounds the walk (any walk along a represented route ends at
`none` before the arena size is spent). -/
def iterFrom (nodes : List DNode) : Nat → Option Nat → List Station
  | 0, _ => []
  | _ + 1, none => []
  | fuel + 1, some i =>
    match nodes[i]? with
    | none => []
    | some nd => nd.station :: iterFrom nodes fuel nd.next

/-- Follow `prev` references from `start`, collecting the stations passed. -/
def iterBackFrom (nodes : List DNode) : Nat → Option Nat → List Station
  | 0, _ => []
  | _ + 1, none => []
  | fuel + 1, some i =>
    match nodes[i]? with
    | none => []
    | some nd => nd.station :: iterBackFrom nodes fuel nd.prev

/-- `DoublyLinkedRoute.iter_forward`: the stations from the head along
`next` references. -/
def DLRoute.iterForward (r : DLRoute) : List Station :=
  iterFrom r.nodes r.nodes.length r.head

/-- `DoublyLinkedRoute.iter_backward`: the stations from the tail along
`prev` references. -/
def DLRoute.iterBackward (r : DLRoute) : List Station :=
  iterBackFrom r.nodes r.nodes.length r.tail

/-- `ids` lists, in order, the handles of a doubly linked chain inside the
arena whose first node's `prev` is `p`: every listed node is live, its
`prev` points at its predecessor in the listing (`p` for the first), and
its `next` at its successor (`none` for the last). -/
def linksB (nodes : List DNode) : Option Nat → List Nat → Bool
  | _, [] => true
  | p, i :: rest =>
    (match nodes[i]? with
     | none => false
     | some nd => nd.prev == p && nd.next == rest.head?) && linksB nodes (some i) rest

/-- The representation invariant of the linear route: `ids` are the
handles of the route's nodes from head to tail — distinct, chained via
`prev` / `next` with the first `prev` and last `next` absent, and equal to
the head and tail references at the ends. -/
abbrev Represents (r : DLRoute) (ids : List Nat) : Prop :=
  ids.Nodup ∧ r.head = ids.head? ∧ r.tail = ids.getLast? ∧ linksB r.nodes none ids = true

/-- The station stored at arena index `i`. -/
def stationAt (nodes : List DNode) (i : Nat) : Station :=
  (nodeAt nodes i).station

/-- The last handle of `ids`, or `p` when `ids` is empty (the reference a
backward walk reaches after passing the whole of `ids`). -/
def olast (p : Option Nat) : List Nat → Option Nat
  | [] => p
  | i :: rest => olast (some i) rest

/-- The route the source's `DoublyLinkedRoute(stations)` constructor
builds: successive appends starting from the empty route. -/
def fromStations (sts : List Station) : DLRoute :=
  sts.foldl (fun r st => (r.append st).1) emptyDLRoute

example : (fromStations [⟨"A", 0⟩, ⟨"B", 0⟩, ⟨"C", 0⟩, ⟨"D", 0⟩]).iterForward =
    [⟨"A", 0⟩, ⟨"B", 0⟩, ⟨"C", 0⟩, ⟨"D", 0⟩] := by decide

example : (fromStations [⟨"A", 0⟩, ⟨"B", 0⟩, ⟨"C", 0⟩, ⟨"D", 0⟩]).iterBackward =
    [⟨"D", 0⟩, ⟨"C", 0⟩, ⟨"B", 0⟩, ⟨"A", 0⟩] := by decide

example : Represents (fromStations [⟨"A", 0⟩, ⟨"B", 0⟩]) [0, 1] := by decide

example : etaLinear [⟨"Alpha", 3⟩, ⟨"Bravo", 5⟩, ⟨"Charlie", 2⟩, ⟨"Delta", 4⟩] 1 "Delta" = some 7 := by
  decide

/-! ### Order lemmas for the code-point-lexicographic comparison -/

theorem lexLt_nil_right (a : List Char) : lexLt a [] = false := by
  cases a <;> rfl

theorem lexLt_irrefl (a : List Char) : lexLt a a = false := by
  induction a with
  | nil => rfl
  | cons c as ih => simp [lexLt, lt_irrefl, ih]

theorem lexLt_asymm : ∀ {a b : List Char}, lexLt a b = true → lexLt b a = false := by
  intro a
  induction a with
  | nil =>
    intro b _
    exact lexLt_nil_right b
  | cons c as ih =>
    intro b hab
    cases b with
    | nil => simp [lexLt] at hab
    | cons d bs =>
      by_cases h1 : c < d
      · have h2 : ¬ d < c := asymm h1
        simp [lexLt, h1, h2, asymm h1]
      · by_cases h2 : d < c
        · simp [lexLt, h1, h2] at hab
        · simp only [lexLt, if_neg h1, if_neg h2] at hab
          simp [lexLt, h1, h2, ih hab]

theorem lexLt_false_trans :
    ∀ (a b c : List Char), lexLt b a = false → lexLt c b = false → lexLt c a = false := by
  intro a
  induction a with
  | nil =>
    intro b c _ _
    exact lexLt_nil_right c
  | cons x as ih =>
    intro b c h1 h2
    cases b with
    | nil => simp [lexLt] at h1
    | cons y bs =>
      cases c with
      | nil => simp [lexLt] at h2
      | cons z cs =>
        simp only [lexLt] at h1 h2 ⊢
        by_cases hyx : y < x
        · simp [hyx] at h1
        · by_cases hzy : z < y
          · simp [hzy] at h2
          · have hxy : x ≤ y := le_of_not_lt hyx
            have hyz : y ≤ z := le_of_not_lt hzy
            have hzx : ¬ z < x := fun h => hzy (lt_of_lt_of_le h hxy)
            simp only [if_neg hzx]
            by_cases hxz : x < z
            · simp [hxz]
            · simp only [if_neg hxz]
              have hxy' : ¬ x < y := fun h => hxz (lt_of_lt_of_le h hyz)
              have hyz' : ¬ y < z := fun h => hxz (lt_of_le_of_lt hxy h)
              simp only [if_neg hyx, if_neg hxy'] at h1
              simp only [if_neg hzy, if_neg hyz'] at h2
              exact ih bs cs h1 h2

/-! ### Sortedness of the catalog (claim C1) -/

/-- The order the catalog is kept in: weakly ascending lowered titles. -/
def bookLe (x y : Book) : Prop :=
  lexLt (lowerKey y.title) (lowerKey x.title) = false

instance : DecidableRel bookLe := fun _ _ =>
  inferInstanceAs (Decidable (_ = false))

instance : IsTotal Book bookLe where
  total := by
    intro a b
    cases h : lexLt (lowerKey b.title) (lowerKey a.title) with
    | true => exact Or.inr (lexLt_asymm h)
    | false => exact Or.inl h

instance : IsTrans Book bookLe where
  trans := by
    intro a b c h1 h2
    exact lexLt_false_trans _ _ _ h1 h2

theorem catalogSorted_eq :
    CatalogSorted = fun l => List.Sorted bookLe l := rfl

theorem insertScan_eq_orderedInsert (nb : Book) :
    ∀ l : List Book, insertScan nb l = List.orderedInsert bookLe nb l := by
  intro l
  induction l with
  | nil => rfl
  | cons c rest ih =>
    by_cases h : lexLt (lowerKey c.title) (lowerKey nb.title) = true
    · have hb : ¬ bookLe nb c := by simp [bookLe, h]
      simp [insertScan, List.orderedInsert, h, hb, ih]
    · have h' : lexLt (lowerKey c.title) (lowerKey nb.title) = false :=
        Bool.eq_false_iff.mpr h
      have hb : bookLe nb c := h'
      simp [insertScan, List.orderedInsert, h', hb]

theorem addBook_sorted (l : List Book) (t a : String) (hs : CatalogSorted l) :
    CatalogSorted (addBook l t a) := by
  rw [catalogSorted_eq] at hs ⊢
  cases l with
  | nil => simp [addBook, List.Sorted]
  | cons b rest =>
    rw [List.sorted_cons] at hs
    obtain ⟨hball, hrest⟩ := hs
    by_cases h : lexLt (lowerKey t) (lowerKey b.title) = true
    · have h1 : bookLe (⟨t, a, true⟩ : Book) b := lexLt_asymm h
      simp only [addBook, h, if_pos]
      rw [List.sorted_cons]
      refine ⟨?_, ?_⟩
      · intro x hx
        rcases List.mem_cons.mp hx with rfl | hx
        · exact h1
        · exact lexLt_false_trans _ _ _ h1 (hball x hx)
      · rw [List.sorted_cons]
        exact ⟨hball, hrest⟩
    · have h' : lexLt (lowerKey t) (lowerKey b.title) = false := Bool.eq_false_iff.mpr h
      simp only [addBook, h', Bool.false_eq_true, if_false]
      rw [insertScan_eq_orderedInsert, List.sorted_cons]
      refine ⟨?_, List.Sorted.orderedInsert _ _ hrest⟩
      intro x hx
      rcases (List.mem_orderedInsert bookLe).mp hx with rfl | hx
      · exact h'
      · exact hball x hx

theorem buildCatalog_loop_sorted (ops : List (String × String)) :
    ∀ l : List Book, CatalogSorted l →
      CatalogSorted (ops.foldl (fun bs p => addBook bs p.1 p.2) l) := by
  induction ops with
  | nil => intro l hl; exact hl
  | cons p rest ih =>
    intro l hl
    exact ih _ (addBook_sorted l p.1 p.2 hl)

/-- Claim C1: for every sequence of `add(title, author)` calls starting
from an empty catalog, after every call the catalog's linked list is
sorted by title in case-insensitive ascending order (every prefix of the
call sequence is itself such a sequence, so the statement over all
sequences covers the state after each call). -/
theorem claim1_add_keeps_catalog_sorted (ops : List (String × String)) :
    CatalogSorted (buildCatalog ops) :=
  buildCatalog_loop_sorted ops [] (List.sorted_nil)

/-! ### Insertion position of `add_book` (claim C2) -/

theorem insertScan_eq_take_drop (nb : Book) :
    ∀ l : List Book,
      insertScan nb l =
        l.takeWhile (fun c => lexLt (lowerKey c.title) (lowerKey nb.title)) ++
          nb :: l.dropWhile (fun c => lexLt (lowerKey c.title) (lowerKey nb.title)) := by
  intro l
  induction l with
  | nil => rfl
  | cons c rest ih =>
    cases h : lexLt (lowerKey c.title) (lowerKey nb.title) with
    | true => simp [insertScan, List.takeWhile_cons, List.dropWhile_cons, h, ih]
    | false => simp [insertScan, List.takeWhile_cons, List.dropWhile_cons, h]

/-- Modelled from the spec: the insertion rule as the spec words it —
the new entry goes immediately before the first element (by forward scan,
the head included) whose lowered title is greater than or equal to the new
lowered title, i.e. after the maximal prefix of strictly smaller titles. -/
def addBookSpecRule (books : List Book) (t a : String) : List Book :=
  books.takeWhile (fun c => lexLt (lowerKey c.title) (lowerKey t)) ++
    (⟨t, a, true⟩ : Book) :: books.dropWhile (fun c => lexLt (lowerKey c.title) (lowerKey t))

/-- Claim C2, counterexample: on the catalog `["A"]`, adding the
case-insensitively equal title `"a"` inserts after the head, not at the
first greater-or-equal position (the front) as the claim demands. -/
theorem claim2_counterexample :
    addBook [⟨"A", "x", true⟩] "a" "y" ≠ addBookSpecRule [⟨"A", "x", true⟩] "a" "y" := by
  decide

/-- Claim C2 as amended: on an empty catalog the new entry is the sole
element; when the new lowered title is strictly smaller than the head's,
the entry becomes the new head; otherwise the head is kept (even when its
title is case-insensitively equal to the new one) and the entry is placed
after the tail's maximal prefix of strictly smaller lowered titles, i.e.
immediately before the first element after the head whose lowered title is
greater than or equal to the new one. -/
theorem claim2_amended_insert_position (l : List Book) (t a : String) :
    (l = [] → addBook l t a = [⟨t, a, true⟩]) ∧
      (∀ b rest, l = b :: rest → lexLt (lowerKey t) (lowerKey b.title) = true →
        addBook l t a = ⟨t, a, true⟩ :: l) ∧
      (∀ b rest, l = b :: rest → lexLt (lowerKey t) (lowerKey b.title) = false →
        addBook l t a =
          b :: (rest.takeWhile (fun c => lexLt (lowerKey c.title) (lowerKey t)) ++
            (⟨t, a, true⟩ : Book) ::
              rest.dropWhile (fun c => lexLt (lowerKey c.title) (lowerKey t)))) := by
  refine ⟨?_, ?_, ?_⟩
  · rintro rfl
    rfl
  · rintro b rest rfl h
    simp [addBook, h]
  · rintro b rest rfl h
    simp [addBook, h, insertScan_eq_take_drop]

/-! ### Borrow / return / undo (claims C3, C6, C8) -/

theorem getElem?_some_lt {α : Type _} {l : List α} {i : Nat} {b : α}
    (h : l[i]? = some b) : i < l.length := by
  by_contra hn
  rw [List.getElem?_eq_none (Nat.le_of_not_lt hn)] at h
  exact Option.noConfusion h

theorem set_of_getElem?_eq {α : Type _} :
    ∀ (l : List α) (i : Nat) (b : α), l[i]? = some b → l.set i b = l := by
  intro l
  induction l with
  | nil => intro i b h; exact absurd h (by simp)
  | cons x xs ih =>
    intro i b h
    cases i with
    | zero =>
      simp only [List.getElem?_cons_zero, Option.some.injEq] at h
      simp [h]
    | succ n =>
      simp only [List.getElem?_cons_succ] at h
      simp [List.set_cons_succ, ih n b h]

theorem findBook_spec :
    ∀ (l : List Book) (t : String) (i : Nat), findBook l t = some i →
      ∃ b, l[i]? = some b ∧ lowerKey b.title = lowerKey t := by
  intro l
  induction l with
  | nil => intro t i h; exact absurd h (by simp [findBook])
  | cons b rest ih =>
    intro t i h
    by_cases hm : lowerKey b.title = lowerKey t
    · simp only [findBook, if_pos hm, Option.some.injEq] at h
      exact ⟨b, by simp [← h], hm⟩
    · simp only [findBook, if_neg hm] at h
      cases hr : findBook rest t with
      | none => rw [hr] at h; exact absurd h (by simp)
      | some j =>
        rw [hr] at h
        have h' : j + 1 = i := by simpa using h
        obtain ⟨c, hc, hcm⟩ := ih t j hr
        exact ⟨c, by simp [← h', hc], hcm⟩

/-- Claim C3: borrowing an available entry and then undoing once restores
the library state (in particular that entry's `available` flag), and
symmetrically for returning a borrowed entry; the `.ok` outcome is exactly
"the scan found an entry in the requested state". -/
theorem claim3_undo_reverses_borrow_and_return (lib : ELibrary) (t : String) :
    ((lib.borrowBook t).2 = LibMsg.ok → ((lib.borrowBook t).1.undo).1 = lib) ∧
      ((lib.returnBook t).2 = LibMsg.ok → ((lib.returnBook t).1.undo).1 = lib) := by
  constructor
  · intro hok
    cases hf : findBook lib.books t with
    | none => simp [ELibrary.borrowBook, hf] at hok
    | some i =>
      cases hb : lib.books[i]? with
      | none => simp [ELibrary.borrowBook, hf, hb] at hok
      | some b =>
        cases hav : b.available with
        | false => simp [ELibrary.borrowBook, hf, hb, hav] at hok
        | true =>
          have hlt : i < lib.books.length := getElem?_some_lt hb
          have hset : (lib.books.set i { b with available := false })[i]? =
              some { b with available := false } :=
            List.getElem?_set_self (by simpa using hlt)
          simp only [ELibrary.borrowBook, hf, hb, hav, if_pos]
          simp only [ELibrary.undo, hset, if_pos rfl, reduceIte]
          rw [List.set_set]
          have hbb : ({ b with available := true } : Book) = b := by
            cases b
            simp only at hav
            simp [hav]
          rw [hbb, set_of_getElem?_eq lib.books i b hb]
  · intro hok
    cases hf : findBook lib.books t with
    | none => simp [ELibrary.returnBook, hf] at hok
    | some i =>
      cases hb : lib.books[i]? with
      | none => simp [ELibrary.returnBook, hf, hb] at hok
      | some b =>
        cases hav : b.available with
        | true => simp [ELibrary.returnBook, hf, hb, hav] at hok
        | false =>
          have hlt : i < lib.books.length := getElem?_some_lt hb
          have hset : (lib.books.set i { b with available := true })[i]? =
              some { b with available := true } :=
            List.getElem?_set_self (by simpa using hlt)
          simp only [ELibrary.returnBook, hf, hb, hav, Bool.false_eq_true, reduceIte]
          simp only [ELibrary.undo, hset]
          rw [if_neg (by decide : ¬ (("return" : String) = "borrow"))]
          rw [List.set_set]
          have hbb : ({ b with available := false } : Book) = b := by
            cases b
            simp only at hav
            simp [hav]
          rw [hbb, set_of_getElem?_eq lib.books i b hb]
          simp

/-- Claim C3 witness: borrow then undo on a one-book library, and return
then undo on its borrowed variant, each restoring the state. -/
theorem claim3_witness :
    ((ELibrary.borrowBook ⟨[⟨"Python", "G", true⟩], []⟩ "python").1.undo).1 =
        ⟨[⟨"Python", "G", true⟩], []⟩ ∧
      ((ELibrary.returnBook ⟨[⟨"Python", "G", false⟩], []⟩ "PYTHON").1.undo).1 =
        ⟨[⟨"Python", "G", false⟩], []⟩ :=
  ⟨(claim3_undo_reverses_borrow_and_return ⟨[⟨"Python", "G", true⟩], []⟩ "python").1 (by decide),
    (claim3_undo_reverses_borrow_and_return ⟨[⟨"Python", "G", false⟩], []⟩ "PYTHON").2 (by decide)⟩

/-- Claim C8: after a successful borrow (and symmetrically a successful
return), one undo mutates exactly the entry whose position was recorded on
the stack at borrow time — the first case-insensitive title match, also
under duplicate titles — restoring it to its pre-borrow value, and leaves
every other entry (title, author and availability) untouched. -/
theorem claim8_undo_mutates_only_recorded_entry (lib : ELibrary) (t : String) :
    ((lib.borrowBook t).2 = LibMsg.ok →
      ∃ i, findBook lib.books t = some i ∧
        (lib.borrowBook t).1.undoStack.head? = some ("borrow", i) ∧
        (∀ j, j ≠ i →
          ((lib.borrowBook t).1.undo).1.books[j]? = (lib.borrowBook t).1.books[j]?) ∧
        ((lib.borrowBook t).1.undo).1.books[i]? = lib.books[i]?) ∧
      ((lib.returnBook t).2 = LibMsg.ok →
        ∃ i, findBook lib.books t = some i ∧
          (lib.returnBook t).1.undoStack.head? = some ("return", i) ∧
          (∀ j, j ≠ i →
            ((lib.returnBook t).1.undo).1.books[j]? = (lib.returnBook t).1.books[j]?) ∧
          ((lib.returnBook t).1.undo).1.books[i]? = lib.books[i]?) := by
  constructor
  · intro hok
    cases hf : findBook lib.books t with
    | none => simp [ELibrary.borrowBook, hf] at hok
    | some i =>
      cases hb : lib.books[i]? with
      | none => simp [ELibrary.borrowBook, hf, hb] at hok
      | some b =>
        cases hav : b.available with
        | false => simp [ELibrary.borrowBook, hf, hb, hav] at hok
        | true =>
          have hlt : i < lib.books.length := getElem?_some_lt hb
          have hset : (lib.books.set i { b with available := false })[i]? =
              some { b with available := false } :=
            List.getElem?_set_self (by simpa using hlt)
          refine ⟨i, rfl, ?_, ?_, ?_⟩
          · simp [ELibrary.borrowBook, hf, hb, hav]
          · intro j hj
            simp only [ELibrary.borrowBook, hf, hb, hav, if_pos]
            simp only [ELibrary.undo, hset, if_pos rfl, reduceIte]
            exact List.getElem?_set_ne (fun he => hj he.symm)
          · simp only [ELibrary.borrowBook, hf, hb, hav, if_pos]
            simp only [ELibrary.undo, hset, if_pos rfl, reduceIte]
            rw [List.set_set]
            have hbb : ({ b with available := true } : Book) = b := by
              cases b
              simp only at hav
              simp [hav]
            rw [hbb, set_of_getElem?_eq lib.books i b hb]
            simp [hb]
  · intro hok
    cases hf : findBook lib.books t with
    | none => simp [ELibrary.returnBook, hf] at hok
    | some i =>
      cases hb : lib.books[i]? with
      | none => simp [ELibrary.returnBook, hf, hb] at hok
      | some b =>
        cases hav : b.available with
        | true => simp [ELibrary.returnBook, hf, hb, hav] at hok
        | false =>
          have hlt : i < lib.books.length := getElem?_some_lt hb
          have hset : (lib.books.set i { b with available := true })[i]? =
              some { b with available := true } :=
            List.getElem?_set_self (by simpa using hlt)
          refine ⟨i, rfl, ?_, ?_, ?_⟩
          · simp [ELibrary.returnBook, hf, hb, hav]
          · intro j hj
            simp only [ELibrary.returnBook, hf, hb, hav, Bool.false_eq_true, reduceIte]
            simp only [ELibrary.undo, hset]
            rw [if_neg (by decide : ¬ (("return" : String) = "borrow"))]
            exact List.getElem?_set_ne (fun he => hj he.symm)
          · simp only [ELibrary.returnBook, hf, hb, hav, Bool.false_eq_true, reduceIte]
            simp only [ELibrary.undo, hset]
            rw [if_neg (by decide : ¬ (("return" : String) = "borrow"))]
            rw [List.set_set]
            have hbb : ({ b with available := false } : Book) = b := by
              cases b
              simp only at hav
              simp [hav]
            rw [hbb, set_of_getElem?_eq lib.books i b hb]
            simp [hb]

/-- Claim C8 witness: a catalog with two case-insensitively equal titles;
borrowing (resp. returning) `"x"` acts on the first copy and undo mutates
exactly that copy. -/
theorem claim8_witness :
    (∃ i, findBook [(⟨"X", "a", true⟩ : Book), ⟨"x", "b", true⟩] "x" = some i ∧
      ((ELibrary.borrowBook ⟨[⟨"X", "a", true⟩, ⟨"x", "b", true⟩], []⟩ "x").1.undoStack.head? =
        some ("borrow", i)) ∧
      (∀ j, j ≠ i →
        (((ELibrary.borrowBook ⟨[⟨"X", "a", true⟩, ⟨"x", "b", true⟩], []⟩ "x").1.undo).1.books[j]? =
          (ELibrary.borrowBook ⟨[⟨"X", "a", true⟩, ⟨"x", "b", true⟩], []⟩ "x").1.books[j]?)) ∧
      (((ELibrary.borrowBook ⟨[⟨"X", "a", true⟩, ⟨"x", "b", true⟩], []⟩ "x").1.undo).1.books[i]? =
        ([(⟨"X", "a", true⟩ : Book), ⟨"x", "b", true⟩])[i]?)) ∧
      (∃ i, findBook [(⟨"X", "a", false⟩ : Book), ⟨"x", "b", false⟩] "x" = some i ∧
        ((ELibrary.returnBook ⟨[⟨"X", "a", false⟩, ⟨"x", "b", false⟩], []⟩ "x").1.undoStack.head? =
          some ("return", i)) ∧
        (∀ j, j ≠ i →
          (((ELibrary.returnBook ⟨[⟨"X", "a", false⟩, ⟨"x", "b", false⟩], []⟩ "x").1.undo).1.books[j]? =
            (ELibrary.returnBook ⟨[⟨"X", "a", false⟩, ⟨"x", "b", false⟩], []⟩ "x").1.books[j]?)) ∧
        (((ELibrary.returnBook ⟨[⟨"X", "a", false⟩, ⟨"x", "b", false⟩], []⟩ "x").1.undo).1.books[i]? =
          ([(⟨"X", "a", false⟩ : Book), ⟨"x", "b", false⟩])[i]?)) :=
  ⟨(claim8_undo_mutates_only_recorded_entry ⟨[⟨"X", "a", true⟩, ⟨"x", "b", true⟩], []⟩ "x").1
      (by decide),
    (claim8_undo_mutates_only_recorded_entry ⟨[⟨"X", "a", false⟩, ⟨"x", "b", false⟩], []⟩ "x").2
      (by decide)⟩

theorem isSubstring_nil_pat : ∀ s : List Char, isSubstring [] s = true := by
  intro s
  cases s with
  | nil => rfl
  | cons c rest => simp [isSubstring, isPrefixList]

/-- Claim C9: the empty keyword is a substring of every title and author,
so searching with it matches every entry — producing the full catalog in
order — and in particular never reports "no matches" on a non-empty
catalog. -/
theorem claim9_empty_keyword_matches_all (books : List Book) :
    searchBooks books "" = books ∧ (books ≠ [] → searchBooks books "" ≠ []) := by
  have h1 : searchBooks books "" = books := by
    simp only [searchBooks]
    apply List.filter_eq_self.mpr
    intro b _
    have hk : lowerKey "" = [] := rfl
    rw [hk]
    simp [isSubstring_nil_pat]
  refine ⟨h1, fun hne => ?_⟩
  rw [h1]
  exact hne

/-- Claim C9 witness. -/
theorem claim9_witness :
    searchBooks [(⟨"Clean Code", "R", true⟩ : Book)] "" = [(⟨"Clean Code", "R", true⟩ : Book)] ∧
      searchBooks [(⟨"Clean Code", "R", true⟩ : Book)] "" ≠ [] :=
  ⟨(claim9_empty_keyword_matches_all [(⟨"Clean Code", "R", true⟩ : Book)]).1,
    (claim9_empty_keyword_matches_all [(⟨"Clean Code", "R", true⟩ : Book)]).2 (by decide)⟩

/-- Claim C6: undoing with an empty history reports failure and leaves the
library (every entry and the list structure) unchanged. -/
theorem claim6_undo_empty_history (lib : ELibrary) (h : lib.undoStack = []) :
    lib.undo = (lib, false) := by
  cases lib with
  | mk books stack =>
    subst h
    rfl

/-- Claim C6 witness. -/
theorem claim6_witness :
    ELibrary.undo ⟨[⟨"Clean Code", "R", true⟩], []⟩ =
      (⟨[⟨"Clean Code", "R", true⟩], []⟩, false) :=
  claim6_undo_empty_history ⟨[⟨"Clean Code", "R", true⟩], []⟩ rfl

/-! ### ETA computation (claim C4) -/

theorem etaScan_not_found :
    ∀ (l : List Station) (t : String),
      (∀ s ∈ l, lowerKey s.name ≠ lowerKey t) → etaScan l t = none := by
  intro l
  induction l with
  | nil => intro t _; rfl
  | cons s rest ih =>
    intro t h
    have hs : lowerKey s.name ≠ lowerKey t := h s (List.mem_cons_self s rest)
    have hrest : etaScan rest t = none :=
      ih t (fun x hx => h x (List.mem_cons_of_mem s hx))
    cases rest with
    | nil => simp [etaScan, hs]
    | cons s2 r2 =>
      have hstep : etaScan (s :: s2 :: r2) t =
          Option.map (s.minutesToNext + ·) (etaScan (s2 :: r2) t) := by
        simp [etaScan, hs]
      rw [hstep, hrest]
      rfl

theorem etaCyc_not_found (l : List Station) (t : String)
    (h : ∀ s ∈ l, lowerKey s.name ≠ lowerKey t) :
    ∀ (fuel k : Nat), etaCyc l t fuel k = none := by
  intro fuel
  induction fuel with
  | zero => intro k; rfl
  | succ f ih =>
    intro k
    cases hg : l[k % l.length]? with
    | none => simp [etaCyc, hg]
    | some s =>
      have hs : s ∈ l := List.getElem?_mem hg
      simp [etaCyc, hg, h s hs, ih (k + 1)]

theorem etaCyc_self (l : List Station) (p fuel : Nat) (hp : p < l.length) :
    etaCyc l ((l.get ⟨p, hp⟩).name) (fuel + 1) p = some 0 := by
  have hg : l[p % l.length]? = some (l.get ⟨p, hp⟩) := by
    rw [Nat.mod_eq_of_lt hp]
    exact List.getElem?_eq_getElem hp
  simp [etaCyc, hg]

/-- Claim C4: from any cursor position, `eta_to` with the name of the
station at that position returns 0, and `eta_to` with a name matching no
station of the route returns "unreachable" (`none`) — both on the linear
and on the circular topology (the circular route built from `l` tracks
`_size = l.length`). -/
theorem claim4_eta_self_zero_and_missing_unreachable
    (l : List Station) (p : Nat) (t : String) (hp : p < l.length) :
    (etaLinear l p ((l.get ⟨p, hp⟩).name) = some 0 ∧
      CircRoute.etaTo ⟨l, l.length⟩ p ((l.get ⟨p, hp⟩).name) = some 0) ∧
      ((∀ s ∈ l, lowerKey s.name ≠ lowerKey t) →
        etaLinear l p t = none ∧ CircRoute.etaTo ⟨l, l.length⟩ p t = none) := by
  constructor
  · constructor
    · rw [etaLinear, List.drop_eq_getElem_cons hp]
      simp [etaScan]
    · cases l with
      | nil => exact absurd hp (by simp)
      | cons s0 rest =>
        exact etaCyc_self (s0 :: rest) p (s0 :: rest).length hp
  · intro h
    constructor
    · exact etaScan_not_found (l.drop p) t (fun s hs => h s (List.mem_of_mem_drop hs))
    · cases l with
      | nil => rfl
      | cons s0 rest =>
        exact etaCyc_not_found (s0 :: rest) t h ((s0 :: rest).length + 1) p

/-- Claim C4 witness: on the demo stations, the ETA from Bravo to itself is
0 and the ETA to an absent station is `none`, for both topologies. -/
theorem claim4_witness :
    (etaLinear [⟨"Alpha", 3⟩, ⟨"Bravo", 5⟩, ⟨"Charlie", 2⟩, ⟨"Delta", 4⟩] 1 "Bravo" = some 0 ∧
      CircRoute.etaTo ⟨[⟨"Alpha", 3⟩, ⟨"Bravo", 5⟩, ⟨"Charlie", 2⟩, ⟨"Delta", 4⟩], 4⟩ 1 "Bravo" =
        some 0) ∧
      (etaLinear [⟨"Alpha", 3⟩, ⟨"Bravo", 5⟩, ⟨"Charlie", 2⟩, ⟨"Delta", 4⟩] 1 "Zeta" = none ∧
        CircRoute.etaTo ⟨[⟨"Alpha", 3⟩, ⟨"Bravo", 5⟩, ⟨"Charlie", 2⟩, ⟨"Delta", 4⟩], 4⟩ 1 "Zeta" =
          none) :=
  ⟨(claim4_eta_self_zero_and_missing_unreachable
      [⟨"Alpha", 3⟩, ⟨"Bravo", 5⟩, ⟨"Charlie", 2⟩, ⟨"Delta", 4⟩] 1 "Zeta" (by decide)).1,
    (claim4_eta_self_zero_and_missing_unreachable
      [⟨"Alpha", 3⟩, ⟨"Bravo", 5⟩, ⟨"Charlie", 2⟩, ⟨"Delta", 4⟩] 1 "Zeta" (by decide)).2
      (by decide)⟩

/-- Claim C5: removing the sole element of a one-element circular route
leaves it empty — the head reference is cleared, `size()` is 0, and `find`
with any name afterwards reports "not found". -/
theorem claim5_remove_last_circular_element (s : Station) (t : String) :
    (CircRoute.remove ⟨[s], 1⟩ 0).stations = [] ∧
      (CircRoute.remove ⟨[s], 1⟩ 0).size = 0 ∧
      (CircRoute.remove ⟨[s], 1⟩ 0).find t = none := by
  refine ⟨?_, ?_, ?_⟩ <;> simp [CircRoute.remove, CircRoute.size, CircRoute.find]

/-! ### The doubly linked route's pointer structure (claims C7, C10) -/

theorem linksB_cons {nodes : List DNode} {p : Option Nat} {i : Nat} {rest : List Nat}
    (h : linksB nodes p (i :: rest) = true) :
    ∃ nd, nodes[i]? = some nd ∧ nd.prev = p ∧ nd.next = rest.head? ∧
      linksB nodes (some i) rest = true := by
  simp only [linksB, Bool.and_eq_true] at h
  obtain ⟨h1, h2⟩ := h
  cases hn : nodes[i]? with
  | none => rw [hn] at h1; exact absurd h1 (by simp)
  | some nd =>
    rw [hn] at h1
    simp only [Bool.and_eq_true, beq_iff_eq] at h1
    exact ⟨nd, rfl, h1.1, h1.2, h2⟩

theorem iterFrom_fuel_none (nodes : List DNode) (fuel : Nat) :
    iterFrom nodes fuel none = [] := by
  cases fuel <;> rfl

theorem iterBackFrom_fuel_none (nodes : List DNode) (fuel : Nat) :
    iterBackFrom nodes fuel none = [] := by
  cases fuel <;> rfl

theorem iterFrom_of_linksB (nodes : List DNode) :
    ∀ (ids : List Nat) (p : Option Nat) (fuel : Nat),
      linksB nodes p ids = true → ids.length ≤ fuel →
      iterFrom nodes fuel ids.head? = ids.map (stationAt nodes) := by
  intro ids
  induction ids with
  | nil => intro p fuel _ _; exact iterFrom_fuel_none nodes fuel
  | cons i rest ih =>
    intro p fuel hl hf
    obtain ⟨nd, hnd, _, hnext, hrest⟩ := linksB_cons hl
    cases fuel with
    | zero => exact absurd hf (by simp)
    | succ f =>
      show iterFrom nodes (f + 1) (some i) = _
      simp only [iterFrom, hnd, hnext]
      rw [ih (some i) f hrest (Nat.le_of_succ_le_succ hf)]
      simp [stationAt, nodeAt, hnd]

theorem olast_cons (p : Option Nat) (i : Nat) (rest : List Nat) :
    olast p (i :: rest) = olast (some i) rest := rfl

theorem olast_eq_getLast? :
    ∀ (ids : List Nat) (i : Nat) (p : Option Nat), olast p (i :: ids) = (i :: ids).getLast? := by
  intro ids
  induction ids with
  | nil => intro i p; simp [olast]
  | cons j tl ih =>
    intro i p
    rw [olast_cons, ih j (some i), List.getLast?_cons_cons]

theorem iterBackFrom_of_linksB (nodes : List DNode) :
    ∀ (ids : List Nat) (p : Option Nat) (fuel : Nat),
      linksB nodes p ids = true → ids.length ≤ fuel →
      iterBackFrom nodes fuel (olast p ids) =
        ids.reverse.map (stationAt nodes) ++ iterBackFrom nodes (fuel - ids.length) p := by
  intro ids
  induction ids with
  | nil => intro p fuel _ _; simp [olast]
  | cons i rest ih =>
    intro p fuel hl hf
    obtain ⟨nd, hnd, hprev, _, hrest⟩ := linksB_cons hl
    rw [olast_cons]
    rw [ih (some i) fuel hrest (Nat.le_of_succ_le hf)]
    have hlen : (i :: rest).length = rest.length + 1 := rfl
    have h1 : fuel - rest.length = (fuel - (i :: rest).length) + 1 := by
      rw [hlen]
      omega
    rw [h1]
    simp only [iterBackFrom, hnd, hprev]
    simp [stationAt, nodeAt, hnd]

theorem linksB_mem_lt (nodes : List DNode) :
    ∀ (ids : List Nat) (p : Option Nat), linksB nodes p ids = true →
      ∀ i ∈ ids, i < nodes.length := by
  intro ids
  induction ids with
  | nil => intro p _ i hi; cases hi
  | cons j rest ih =>
    intro p hl i hi
    obtain ⟨nd, hnd, _, _, hrest⟩ := linksB_cons hl
    rcases List.mem_cons.mp hi with rfl | hi
    · exact getElem?_some_lt hnd
    · exact ih (some j) hrest i hi

theorem nodup_bounded_length {n : Nat} (ids : List Nat) (hnd : ids.Nodup)
    (hbound : ∀ i ∈ ids, i < n) : ids.length ≤ n := by
  have h1 : ids.toFinset.card = ids.length := List.toFinset_card_of_nodup hnd
  have h2 : ids.toFinset ⊆ Finset.range n := by
    intro i hi
    rw [List.mem_toFinset] at hi
    exact Finset.mem_range.mpr (hbound i hi)
  have h3 := Finset.card_le_card h2
  rw [h1, Finset.card_range] at h3
  exact h3

/-- Claim C7: on every route satisfying the representation invariant,
backward iteration produces exactly the reverse of forward iteration; in
particular the route built from `[A, B, C, D]` iterates forward as
`[A, B, C, D]` and backward as `[D, C, B, A]`. -/
theorem claim7_backward_iterates_reverse_of_forward :
    (∀ (r : DLRoute) (ids : List Nat), Represents r ids →
      r.iterBackward = r.iterForward.reverse) ∧
      ((fromStations [⟨"A", 0⟩, ⟨"B", 0⟩, ⟨"C", 0⟩, ⟨"D", 0⟩]).iterForward =
          [⟨"A", 0⟩, ⟨"B", 0⟩, ⟨"C", 0⟩, ⟨"D", 0⟩] ∧
        (fromStations [⟨"A", 0⟩, ⟨"B", 0⟩, ⟨"C", 0⟩, ⟨"D", 0⟩]).iterBackward =
          [⟨"D", 0⟩, ⟨"C", 0⟩, ⟨"B", 0⟩, ⟨"A", 0⟩]) := by
  constructor
  · intro r ids hrep
    obtain ⟨hnd, hh, ht, hl⟩ := hrep
    have hbound := linksB_mem_lt r.nodes ids none hl
    have hlen : ids.length ≤ r.nodes.length := nodup_bounded_length ids hnd hbound
    have hfwd : r.iterForward = ids.map (stationAt r.nodes) := by
      rw [DLRoute.iterForward, hh]
      exact iterFrom_of_linksB r.nodes ids none r.nodes.length hl hlen
    cases ids with
    | nil =>
      rw [DLRoute.iterBackward, ht, hfwd]
      simp [iterBackFrom_fuel_none]
    | cons i rest =>
      rw [DLRoute.iterBackward, ht, ← olast_eq_getLast? rest i none,
        iterBackFrom_of_linksB r.nodes (i :: rest) none r.nodes.length hl hlen,
        iterBackFrom_fuel_none, hfwd]
      simp [List.map_reverse]
  · exact ⟨by decide, by decide⟩

/-- Claim C7 witness: the two-station route from appends satisfies the
representation invariant and its backward iteration reverses the forward
one. -/
theorem claim7_witness :
    (fromStations [⟨"A", 0⟩, ⟨"B", 0⟩]).iterBackward =
      (fromStations [⟨"A", 0⟩, ⟨"B", 0⟩]).iterForward.reverse :=
  claim7_backward_iterates_reverse_of_forward.1 (fromStations [⟨"A", 0⟩, ⟨"B", 0⟩]) [0, 1]
    (by decide)

/-- Claim C10: "the head reference is absent iff the tail reference is
absent" holds for the fresh route and is preserved by `append`, by
`insert_after` on an anchor that is in the route, and by `remove` on a
node that is in the route. -/
theorem claim10_head_absent_iff_tail_absent :
    (emptyDLRoute.head = none ↔ emptyDLRoute.tail = none) ∧
      (∀ (r : DLRoute) (st : Station), (r.head = none ↔ r.tail = none) →
        ((r.append st).1.head = none ↔ (r.append st).1.tail = none)) ∧
      (∀ (r : DLRoute) (ids : List Nat) (a : Nat) (st : Station),
        Represents r ids → a ∈ ids →
        ((r.insertAfter a st).1.head = none ↔ (r.insertAfter a st).1.tail = none)) ∧
      (∀ (r : DLRoute) (ids : List Nat) (n : Nat), Represents r ids → n ∈ ids →
        ((r.removeNode n).head = none ↔ (r.removeNode n).tail = none)) := by
  refine ⟨by simp [emptyDLRoute], ?_, ?_, ?_⟩
  · intro r st hiff
    cases ht : r.tail with
    | none => simp [DLRoute.append, ht]
    | some tl =>
      cases hh : r.head with
      | none => exact absurd (hiff.mp hh) (by simp [ht])
      | some h0 => simp [DLRoute.append, ht, hh]
  · intro r ids a st hrep ha
    obtain ⟨_, hh, ht, _⟩ := hrep
    cases ids with
    | nil => cases ha
    | cons i rest =>
      have hh' : r.head = some i := by simpa using hh
      obtain ⟨x, hx⟩ : ∃ x, (i :: rest).getLast? = some x :=
        Option.isSome_iff_exists.mp (List.getLast?_isSome.mpr (by simp))
      have ht' : r.tail = some x := by rw [ht, hx]
      cases hnx : (nodeAt r.nodes a).next with
      | none => simp [DLRoute.insertAfter, hnx, hh']
      | some nx => simp [DLRoute.insertAfter, hnx, hh', ht']
  · intro r ids n hrep hn
    obtain ⟨_, hh, ht, _⟩ := hrep
    cases ids with
    | nil => cases hn
    | cons i rest =>
      have hh' : r.head = some i := by simpa using hh
      obtain ⟨x, hx⟩ : ∃ x, (i :: rest).getLast? = some x :=
        Option.isSome_iff_exists.mp (List.getLast?_isSome.mpr (by simp))
      have ht' : r.tail = some x := by rw [ht, hx]
      cases hp : (nodeAt r.nodes n).prev with
      | none =>
        cases hq : (nodeAt r.nodes n).next with
        | none => simp [DLRoute.removeNode, hp, hq]
        | some q => simp [DLRoute.removeNode, hp, hq, ht']
      | some p =>
        cases hq : (nodeAt r.nodes n).next with
        | none => simp [DLRoute.removeNode, hp, hq, hh']
        | some q => simp [DLRoute.removeNode, hp, hq, hh', ht']

/-- Claim C10 witness: removing the head of the two-station route keeps
the invariant. -/
theorem claim10_witness :
    ((fromStations [⟨"A", 0⟩, ⟨"B", 0⟩]).removeNode 0).head = none ↔
      ((fromStations [⟨"A", 0⟩, ⟨"B", 0⟩]).removeNode 0).tail = none :=
  claim10_head_absent_iff_tail_absent.2.2.2 (fromStations [⟨"A", 0⟩, ⟨"B", 0⟩]) [0, 1] 0
    (by decide) (by decide)

/-- Claim C2 (amended) witness: the three cases at concrete inputs. -/
theorem claim2_amended_witness :
    addBook [] "B" "y" = [⟨"B", "y", true⟩] ∧
      addBook [⟨"b", "x", true⟩] "A" "y" = [⟨"A", "y", true⟩, ⟨"b", "x", true⟩] ∧
      addBook [⟨"A", "x", true⟩, ⟨"C", "z", true⟩] "b" "y" =
        ⟨"A", "x", true⟩ ::
          (([⟨"C", "z", true⟩] : List Book).takeWhile
              (fun c => lexLt (lowerKey c.title) (lowerKey "b")) ++
            (⟨"b", "y", true⟩ : Book) ::
              ([⟨"C", "z", true⟩] : List Book).dropWhile
                (fun c => lexLt (lowerKey c.title) (lowerKey "b"))) :=
  ⟨(claim2_amended_insert_position [] "B" "y").1 rfl,
    (claim2_amended_insert_position [⟨"b", "x", true⟩] "A" "y").2.1 _ _ rfl (by decide),
    (claim2_amended_insert_position [⟨"A", "x", true⟩, ⟨"C", "z", true⟩] "b" "y").2.2 _ _ rfl
      (by decide)⟩

example : CircRoute.etaTo ⟨[⟨"North", 4⟩, ⟨"East", 3⟩, ⟨"South", 5⟩, ⟨"West", 2⟩], 4⟩ 3 "South" = some 9 := by
  decide

example : buildCatalog [("Python Programming", "G"), ("Data Structures", "N"), ("Clean Code", "R")] =
    [⟨"Clean Code", "R", true⟩, ⟨"Data Structures", "N", true⟩, ⟨"Python Programming", "G", true⟩] := by
  decide

example : addBook [⟨"A", "x", true⟩] "a" "y" = [⟨"A", "x", true⟩, ⟨"a", "y", true⟩] := by
  decide
